import Mathlib

/-!
Verification of the H2 ground-state-energy pipeline
(`h2-groundstate-energy/submission/start_here.ipynb`).

The notebook's core logic is

* the VQE convergence loop

  ```
  for _ in range(max_iterations):
      theta, prev_energy = optimizer.step_and_cost(cost_fn, theta)
      energy = cost_fn(theta)
      if np.abs(energy - prev_energy) <= convergence_tolerance:
          break
  ...
  output = float(energy)
  ```

* the XYZ geometry parser `xyz_parse.Molecule.parse`, imported from an
  external package (its code is not in this repository), so it is modelled
  here from the specification's grammar.

Costs and coordinates are embedded as rationals so that every definition is
executable and every concrete run can be settled by `decide`/`rfl`.
Collaborator calls that may fail are embedded in `Except`; the loop is given
the iteration budget `max_iterations` as structural fuel, and the number of
collaborator invocations actually made is tracked alongside the result.
-/

/-- Propositional equality of `Except` values is decidable when it is on both
components; lets concrete runs of the embedded functions be settled by
`decide`. -/
instance {E A : Type} [DecidableEq E] [DecidableEq A] : DecidableEq (Except E A)
  | .error a, .error b =>
    if h : a = b then .isTrue (h ▸ rfl)
    else .isFalse (fun hc => h (Except.error.inj hc))
  | .error _, .ok _ => .isFalse (fun hc => Except.noConfusion hc)
  | .ok _, .error _ => .isFalse (fun hc => Except.noConfusion hc)
  | .ok a, .ok b =>
    if h : a = b then .isTrue (h ▸ rfl)
    else .isFalse (fun hc => h (Except.ok.inj hc))

namespace VQE

/-- Scalar cost (energy) values, embedded as rationals. -/
abbrev Cost := ℚ

/-- Result record built from the loop's locals when the `for` loop ends:
`theta` (final parameters), `energy` (the Python local, which is undefined —
`none` — when the loop body never ran), the number of completed iterations
(1-based count of completed optimizer steps), and whether the `break` on the
tolerance test was taken. -/
structure LoopOutcome (P : Type) where
  finalParameters : P
  finalCost : Option Cost
  iterationsRun : Nat
  converged : Bool
  deriving DecidableEq, Repr

/-- How many times the loop itself has invoked each collaborator:
`evalCalls` counts direct `cost_fn(theta)` calls made by the loop body,
`stepCalls` counts `optimizer.step_and_cost(cost_fn, theta)` calls. -/
structure Counters where
  evalCalls : Nat
  stepCalls : Nat
  deriving DecidableEq, Repr

/-- One run of the notebook's convergence loop, from an arbitrary loop state:
current `theta`, current value of the local `energy` (`none` before its first
assignment), number of iterations already completed, collaborator-call
counters so far, and remaining iteration budget.  Each iteration first calls
`step_and_cost` (new parameters plus the cost measured at the old
parameters), then freshly evaluates the cost at the new parameters, then
breaks when `|energy - prev_energy| <= tol`.  A failing collaborator call
makes the whole run return that failure at once. -/
def loopAux {P E : Type} (ev : P → Except E Cost)
    (sc : (P → Except E Cost) → P → Except E (P × Cost)) (tol : ℚ)
    (theta : P) (energy : Option Cost) (done : Nat) (c : Counters) :
    Nat → Except E (LoopOutcome P) × Counters
  | 0 => (.ok ⟨theta, energy, done, false⟩, c)
  | fuel + 1 =>
    match sc ev theta with
    | .error e => (.error e, ⟨c.evalCalls, c.stepCalls + 1⟩)
    | .ok tp =>
      match ev tp.1 with
      | .error e => (.error e, ⟨c.evalCalls + 1, c.stepCalls + 1⟩)
      | .ok cur =>
        if |cur - tp.2| ≤ tol then
          (.ok ⟨tp.1, some cur, done + 1, true⟩,
           ⟨c.evalCalls + 1, c.stepCalls + 1⟩)
        else
          loopAux ev sc tol tp.1 (some cur) (done + 1)
            ⟨c.evalCalls + 1, c.stepCalls + 1⟩ fuel

/-- The convergence loop as run by the notebook: start at
`initialParameters` with `energy` undefined, zero completed iterations, and
iteration budget `maxIterations`. -/
def optimize {P E : Type} (ev : P → Except E Cost)
    (sc : (P → Except E Cost) → P → Except E (P × Cost)) (tol : ℚ)
    (initialParameters : P) (maxIterations : Nat) :
    Except E (LoopOutcome P) :=
  (loopAux ev sc tol initialParameters none 0 ⟨0, 0⟩ maxIterations).1

/-- The collaborator-call counters of the run of `optimize`. -/
def optimizeCalls {P E : Type} (ev : P → Except E Cost)
    (sc : (P → Except E Cost) → P → Except E (P × Cost)) (tol : ℚ)
    (initialParameters : P) (maxIterations : Nat) : Counters :=
  (loopAux ev sc tol initialParameters none 0 ⟨0, 0⟩ maxIterations).2

/-- The reporting code after the loop, `output = float(energy)`: it reads the
loop local `energy`, so it produces a value exactly when that local was
assigned (a `none` here models the `NameError` on an undefined name). -/
def reportOutput {P : Type} (r : LoopOutcome P) : Option Cost :=
  r.finalCost

/-- A total cost evaluator `f`, as the evaluator collaborator. -/
def evT {P : Type} (f : P → Cost) : P → Except Unit Cost :=
  fun p => .ok (f p)

/-- A total step-and-cost optimizer `g`, as the optimizer collaborator:
`g p = (new parameters, cost reported at the old parameters p)`. -/
def scT {P : Type} (g : P → P × Cost) :
    (P → Except Unit Cost) → P → Except Unit (P × Cost) :=
  fun _ p => .ok (g p)

/-- Parameter trajectory of a failure-free run driven by optimizer `g`:
`thetaAt g t0 k` is the parameter vector after `k` completed steps. -/
def thetaAt {P : Type} (g : P → P × Cost) (t0 : P) : Nat → P
  | 0 => t0
  | k + 1 => (g (thetaAt g t0 k)).1

/-- The cost the optimizer reports at the parameters entering step `k + 1`
(the loop's `prev_energy` in iteration `k + 1`). -/
def prevAt {P : Type} (g : P → P × Cost) (t0 : P) (k : Nat) : Cost :=
  (g (thetaAt g t0 k)).2

/-- The cost freshly evaluated at the parameters produced by step `k + 1`
(the loop's `energy` in iteration `k + 1`). -/
def currAt {P : Type} (f : P → Cost) (g : P → P × Cost) (t0 : P)
    (k : Nat) : Cost :=
  f (thetaAt g t0 (k + 1))

/-- Iteration `k + 1` of a failure-free run passes the tolerance test:
the absolute difference of the fresh cost after the step against the cost
before the step is at most `tol`. -/
def convAt {P : Type} (f : P → Cost) (g : P → P × Cost) (tol : ℚ) (t0 : P)
    (k : Nat) : Prop :=
  |currAt f g t0 k - prevAt g t0 k| ≤ tol

instance {P : Type} (f : P → Cost) (g : P → P × Cost) (tol : ℚ) (t0 : P)
    (k : Nat) : Decidable (convAt f g tol t0 k) :=
  inferInstanceAs (Decidable (|currAt f g t0 k - prevAt g t0 k| ≤ tol))

end VQE

namespace XyzParse

/-- Modelled from the spec: the error type of `xyz_parse.Molecule.parse`
(the `xyz_parse` package's code is not in this repository).  `FormatError`
carries enough context to diagnose: the offending line number or token. -/
inductive FormatError where
  /-- Line 1 is not parseable as an integer, or is negative. -/
  | badHeader : List Char → FormatError
  /-- The comment line (line 2) is absent. -/
  | missingComment : FormatError
  /-- An atom line does not hold exactly four tokens, or a coordinate token
  does not parse as a real number; carries the 1-based line number. -/
  | badAtomLine : Nat → FormatError
  /-- The input ends before the declared number of atom lines was read;
  carries the 1-based number of the first missing line. -/
  | missingAtomLine : Nat → FormatError
  deriving DecidableEq, Repr

/-- Modelled from the spec: one chemical element placed in 3-D space. -/
structure Atom where
  symbol : String
  x : ℚ
  y : ℚ
  z : ℚ
  deriving DecidableEq, Repr

/-- Modelled from the spec: a parsed molecule — a free-form comment and the
ordered sequence of atoms, in input order. -/
structure Molecule where
  comment : String
  atoms : List Atom
  deriving DecidableEq, Repr

/-- Whitespace that separates tokens on a line (and may pad the header). -/
def isWs (c : Char) : Bool :=
  c = ' ' || c = '\t' || c = '\r'

/-- Split a character list on a separator predicate, keeping empty pieces:
`n` separator characters give `n + 1` pieces. -/
def splitOnP (p : Char → Bool) : List Char → List (List Char)
  | [] => [[]]
  | c :: cs =>
    match splitOnP p cs, p c with
    | rest, true => [] :: rest
    | [], false => [[c]]
    | r :: rs, false => (c :: r) :: rs

/-- The lines of the input text (split on newline characters). -/
def linesOf (s : String) : List (List Char) :=
  splitOnP (· = '\n') s.data

/-- The whitespace-separated tokens of one line. -/
def fieldsOf (l : List Char) : List (List Char) :=
  (splitOnP isWs l).filter (· ≠ [])

/-- Strip leading and trailing whitespace from a line. -/
def trimWs (l : List Char) : List Char :=
  ((l.dropWhile isWs).reverse.dropWhile isWs).reverse

/-- Strip one optional leading sign, returning it as `1` or `-1`. -/
def takeSign : List Char → Int × List Char
  | '-' :: cs => (-1, cs)
  | '+' :: cs => (1, cs)
  | cs => (1, cs)

/-- The natural number denoted by a digit string. -/
def digitsVal (l : List Char) : Nat :=
  l.foldl (fun a c => 10 * a + (c.toNat - '0'.toNat)) 0

/-- A nonempty all-digit token parsed with an optional leading sign;
`none` on any embedded non-digit character. -/
def parseSignedInt (l : List Char) : Option Int :=
  match takeSign l with
  | (s, ds) =>
    if ds ≠ [] ∧ ds.all (·.isDigit) = true then some (s * digitsVal ds)
    else none

/-- Split at the first character satisfying `p`: the part before it, and
(when it occurs) the part after it. -/
def splitAtFirst (p : Char → Bool) : List Char → List Char × Option (List Char)
  | [] => ([], none)
  | c :: cs =>
    if p c then ([], some cs)
    else
      match splitAtFirst p cs with
      | (a, b) => (c :: a, b)

/-- An unsigned fixed-point mantissa: digits, optionally with one decimal
point, at least one digit overall; rejects anything else. -/
def parseMantissa (l : List Char) : Option ℚ :=
  match splitAtFirst (· = '.') l with
  | (ip, none) =>
    if ip ≠ [] ∧ ip.all (·.isDigit) = true then some (digitsVal ip : ℚ)
    else none
  | (ip, some fp) =>
    if (ip ≠ [] ∨ fp ≠ []) ∧ ip.all (·.isDigit) = true ∧
        fp.all (·.isDigit) = true then
      some ((digitsVal ip : ℚ) + (digitsVal fp : ℚ) / ((10 : ℚ) ^ fp.length))
    else none

/-- Modelled from the spec: a coordinate token parsed as a real number in
standard decimal or scientific notation, with an optional leading sign;
tokens with embedded non-numeric characters are rejected. -/
def parseRat (l : List Char) : Option ℚ :=
  match takeSign l with
  | (s, r) =>
    match splitAtFirst (fun c => c = 'e' || c = 'E') r with
    | (mant, none) =>
      (parseMantissa mant).map (fun m => (s : ℚ) * m)
    | (mant, some ex) =>
      match parseMantissa mant, parseSignedInt ex with
      | some m, some e => some ((s : ℚ) * m * (10 : ℚ) ^ e)
      | _, _ => none

/-- Modelled from the spec: line 1 holds a non-negative integer `N`;
fails when it is not parseable as an integer or is negative. -/
def parseHeader (l : List Char) : Except FormatError Nat :=
  match parseSignedInt (trimWs l) with
  | none => .error (.badHeader l)
  | some i => if i < 0 then .error (.badHeader l) else .ok i.toNat

/-- Modelled from the spec: one atom line at 1-based line number `lineNo` —
exactly four whitespace-separated tokens, the symbol followed by three
coordinates parseable as real numbers. -/
def parseAtom (lineNo : Nat) (l : List Char) : Except FormatError Atom :=
  match fieldsOf l with
  | [sym, xs, ys, zs] =>
    match parseRat xs, parseRat ys, parseRat zs with
    | some x, some y, some z => .ok ⟨String.mk sym, x, y, z⟩
    | _, _, _ => .error (.badAtomLine lineNo)
  | _ => .error (.badAtomLine lineNo)

/-- Modelled from the spec: read exactly `n` atom lines starting at 1-based
line number `lineNo`; fails when the input ends before `n` lines were read. -/
def parseAtoms : Nat → Nat → List (List Char) → Except FormatError (List Atom)
  | 0, _, _ => .ok []
  | _ + 1, lineNo, [] => .error (.missingAtomLine lineNo)
  | n + 1, lineNo, l :: ls =>
    match parseAtom lineNo l with
    | .error e => .error e
    | .ok a =>
      match parseAtoms n (lineNo + 1) ls with
      | .error e => .error e
      | .ok as => .ok (a :: as)

/-- Modelled from the spec: `xyz_parse.Molecule.parse` — line 1 the declared
atom count `N`, line 2 the verbatim comment, then exactly `N` atom lines;
trailing content beyond the `N`-th atom line is ignored. -/
def Molecule.parse (text : String) : Except FormatError Molecule :=
  match linesOf text with
  | [] => .error .missingComment
  | header :: rest =>
    match parseHeader header with
    | .error e => .error e
    | .ok n =>
      match rest with
      | [] => .error .missingComment
      | comment :: atomLines =>
        match parseAtoms n 3 atomLines with
        | .error e => .error e
        | .ok atoms => .ok ⟨String.mk comment, atoms⟩

/-- The declared atom count of an input text: what `parse` reads from its
header line, when the header is well-formed. -/
def declaredCount (text : String) : Option Nat :=
  match linesOf text with
  | [] => none
  | header :: _ =>
    match parseHeader header with
    | .error _ => none
    | .ok n => some n

/-- The number of lines the input text offers after the header and comment
lines — the lines available as atom lines. -/
def atomLineCount (text : String) : Nat :=
  (linesOf text).length - 2

end XyzParse

namespace VQE

theorem thetaAt_shift {P : Type} (g : P → P × Cost) (t0 : P) (k : Nat) :
    thetaAt g t0 (k + 1) = thetaAt g (g t0).1 k := by
  induction k with
  | zero => rfl
  | succ k ih =>
    show (g (thetaAt g t0 (k + 1))).1 = (g (thetaAt g (g t0).1 k)).1
    rw [ih]

theorem prevAt_shift {P : Type} (g : P → P × Cost) (t0 : P) (k : Nat) :
    prevAt g t0 (k + 1) = prevAt g (g t0).1 k := by
  unfold prevAt
  rw [thetaAt_shift]

theorem currAt_shift {P : Type} (f : P → Cost) (g : P → P × Cost) (t0 : P)
    (k : Nat) : currAt f g t0 (k + 1) = currAt f g (g t0).1 k := by
  unfold currAt
  rw [thetaAt_shift]

theorem convAt_shift {P : Type} (f : P → Cost) (g : P → P × Cost) (tol : ℚ)
    (t0 : P) (k : Nat) :
    convAt f g tol t0 (k + 1) ↔ convAt f g tol (g t0).1 k := by
  unfold convAt
  rw [prevAt_shift, currAt_shift]

/-- A failure-free run of the loop body from any loop state: when the
tolerance test first passes at relative iteration `k + 1` (within budget),
the loop breaks there with the stepped parameters, the freshly evaluated
cost, `k + 1` more completed iterations, and one collaborator call of each
kind per iteration. -/
theorem loopAux_converge {P : Type} (f : P → Cost) (g : P → P × Cost)
    (tol : ℚ) :
    ∀ (n k : Nat) (t : P) (en : Option Cost) (d : Nat) (c : Counters),
      k < n → (∀ j, j < k → ¬ convAt f g tol t j) → convAt f g tol t k →
      loopAux (evT f) (scT g) tol t en d c n =
        (.ok ⟨thetaAt g t (k + 1), some (currAt f g t k), d + (k + 1), true⟩,
         ⟨c.evalCalls + (k + 1), c.stepCalls + (k + 1)⟩) := by
  intro n
  induction n with
  | zero =>
    intro k t en d c hk
    exact absurd hk (Nat.not_lt_zero k)
  | succ n ih =>
    intro k t en d c hk hmin hconv
    match k with
    | 0 =>
      have hc : |f (g t).1 - (g t).2| ≤ tol := hconv
      simp only [loopAux, evT, scT]
      rw [if_pos hc]
      rfl
    | k + 1 =>
      have h0 : ¬ |f (g t).1 - (g t).2| ≤ tol := hmin 0 (Nat.succ_pos k)
      have hmin' : ∀ j, j < k → ¬ convAt f g tol (g t).1 j := by
        intro j hj hcj
        exact hmin (j + 1) (Nat.succ_lt_succ hj)
          ((convAt_shift f g tol t j).mpr hcj)
      have hrec := ih k (g t).1 (some (f (g t).1)) (d + 1)
        ⟨c.evalCalls + 1, c.stepCalls + 1⟩ (Nat.lt_of_succ_lt_succ hk) hmin'
        ((convAt_shift f g tol t k).mp hconv)
      simp only [loopAux, evT, scT]
      rw [if_neg h0, hrec, ← thetaAt_shift g t (k + 1), ← currAt_shift f g t k]
      have e1 : d + 1 + (k + 1) = d + (k + 1 + 1) := by omega
      have e2 : c.evalCalls + 1 + (k + 1) = c.evalCalls + (k + 1 + 1) := by
        omega
      have e3 : c.stepCalls + 1 + (k + 1) = c.stepCalls + (k + 1 + 1) := by
        omega
      rw [e1, e2, e3]

/-- One iteration of a failure-free run, unfolded: step, fresh evaluation,
tolerance test. -/
theorem loopAux_pure_succ {P : Type} (f : P → Cost) (g : P → P × Cost)
    (tol : ℚ) (t : P) (en : Option Cost) (d : Nat) (c : Counters) (m : Nat) :
    loopAux (evT f) (scT g) tol t en d c (m + 1) =
      if |f (g t).1 - (g t).2| ≤ tol then
        (.ok ⟨(g t).1, some (f (g t).1), d + 1, true⟩,
         ⟨c.evalCalls + 1, c.stepCalls + 1⟩)
      else
        loopAux (evT f) (scT g) tol (g t).1 (some (f (g t).1)) (d + 1)
          ⟨c.evalCalls + 1, c.stepCalls + 1⟩ m := by
  simp only [loopAux, evT, scT]

/-- A failure-free run of the loop body from any loop state: when the
tolerance test passes at none of the `n` budgeted iterations, the loop runs
all of them and ends unconverged, with `n` more completed iterations and one
collaborator call of each kind per iteration; the final `energy` local is
the fresh evaluation of the last iteration (or the entering value when the
budget was zero). -/
theorem loopAux_exhaust {P : Type} (f : P → Cost) (g : P → P × Cost)
    (tol : ℚ) :
    ∀ (n : Nat) (t : P) (en : Option Cost) (d : Nat) (c : Counters),
      (∀ j, j < n + 1 → ¬ convAt f g tol t j) →
      loopAux (evT f) (scT g) tol t en d c (n + 1) =
        (.ok ⟨thetaAt g t (n + 1), some (currAt f g t n), d + (n + 1), false⟩,
         ⟨c.evalCalls + (n + 1), c.stepCalls + (n + 1)⟩) := by
  intro n
  induction n with
  | zero =>
    intro t en d c hall
    have h0 : ¬ |f (g t).1 - (g t).2| ≤ tol := hall 0 (Nat.succ_pos 0)
    rw [loopAux_pure_succ, if_neg h0]
    rfl
  | succ n ih =>
    intro t en d c hall
    have h0 : ¬ |f (g t).1 - (g t).2| ≤ tol :=
      hall 0 (Nat.succ_pos (n + 1))
    have hall' : ∀ j, j < n + 1 → ¬ convAt f g tol (g t).1 j :=
      fun j hj hcj =>
        hall (j + 1) (Nat.succ_lt_succ hj) ((convAt_shift f g tol t j).mpr hcj)
    have hrec := ih (g t).1 (some (f (g t).1)) (d + 1)
      ⟨c.evalCalls + 1, c.stepCalls + 1⟩ hall'
    rw [loopAux_pure_succ, if_neg h0, hrec, ← thetaAt_shift g t (n + 1),
      ← currAt_shift f g t n]
    have e1 : d + 1 + (n + 1) = d + (n + 1 + 1) := by omega
    have e2 : c.evalCalls + 1 + (n + 1) = c.evalCalls + (n + 1 + 1) := by
      omega
    have e3 : c.stepCalls + 1 + (n + 1) = c.stepCalls + (n + 1 + 1) := by
      omega
    rw [e1, e2, e3]

/-- Any run of the loop body that ends in a result record (no collaborator
failure) completed exactly `iterationsRun - done` further iterations, and
invoked the optimizer and the evaluator exactly once per completed
iteration. -/
theorem loopAux_ok_counts {P E : Type} (ev : P → Except E Cost)
    (sc : (P → Except E Cost) → P → Except E (P × Cost)) (tol : ℚ) :
    ∀ (n : Nat) (t : P) (en : Option Cost) (d : Nat) (c : Counters)
      (r : LoopOutcome P) (c2 : Counters),
      loopAux ev sc tol t en d c n = (.ok r, c2) →
      d ≤ r.iterationsRun ∧
        c2.stepCalls = c.stepCalls + (r.iterationsRun - d) ∧
        c2.evalCalls = c.evalCalls + (r.iterationsRun - d) := by
  intro n
  induction n with
  | zero =>
    intro t en d c r c2 h
    simp only [loopAux, Prod.mk.injEq, Except.ok.injEq] at h
    obtain ⟨h1, h2⟩ := h
    rw [← h1, ← h2]
    simp
  | succ n ih =>
    intro t en d c r c2 h
    cases hsc : sc ev t with
    | error e =>
      simp only [loopAux, hsc, Prod.mk.injEq] at h
      exact Except.noConfusion h.1
    | ok tp =>
      cases hev : ev tp.1 with
      | error e =>
        simp only [loopAux, hsc, hev, Prod.mk.injEq] at h
        exact Except.noConfusion h.1
      | ok cur =>
        by_cases hc : |cur - tp.2| ≤ tol
        · simp only [loopAux, hsc, hev] at h
          rw [if_pos hc] at h
          simp only [Prod.mk.injEq, Except.ok.injEq] at h
          obtain ⟨h1, h2⟩ := h
          rw [← h1, ← h2]
          simp
        · simp only [loopAux, hsc, hev] at h
          rw [if_neg hc] at h
          have := ih tp.1 (some cur) (d + 1)
            ⟨c.evalCalls + 1, c.stepCalls + 1⟩ r c2 h
          obtain ⟨hd, hs, he⟩ := this
          refine ⟨by omega, ?_, ?_⟩
          · rw [hs]; simp only []; omega
          · rw [he]; simp only []; omega

/-- With total (never-failing) collaborators, every run of the loop body
ends in a result record. -/
theorem loopAux_pure_ok {P : Type} (f : P → Cost) (g : P → P × Cost)
    (tol : ℚ) :
    ∀ (n : Nat) (t : P) (en : Option Cost) (d : Nat) (c : Counters),
      ∃ r c2, loopAux (evT f) (scT g) tol t en d c n = (.ok r, c2) := by
  intro n
  induction n with
  | zero =>
    intro t en d c
    exact ⟨_, _, rfl⟩
  | succ n ih =>
    intro t en d c
    by_cases hc : |f (g t).1 - (g t).2| ≤ tol
    · exact ⟨_, _, by simp only [loopAux, evT, scT]; rw [if_pos hc]⟩
    · obtain ⟨r, c2, hr⟩ := ih (g t).1 (some (f (g t).1)) (d + 1)
        ⟨c.evalCalls + 1, c.stepCalls + 1⟩
      exact ⟨r, c2, by simp only [loopAux, evT, scT]; rw [if_neg hc, hr]⟩

/-- Invariant of a failure-free run: once the `energy` local holds the cost
evaluated at the current parameters, the run's final `energy` holds the cost
evaluated at the final parameters. -/
theorem loopAux_cost_fresh {P : Type} (f : P → Cost) (g : P → P × Cost)
    (tol : ℚ) :
    ∀ (n : Nat) (t : P) (d : Nat) (c : Counters) (r : LoopOutcome P)
      (c2 : Counters),
      loopAux (evT f) (scT g) tol t (some (f t)) d c n = (.ok r, c2) →
      r.finalCost = some (f r.finalParameters) := by
  intro n
  induction n with
  | zero =>
    intro t d c r c2 h
    simp only [loopAux, Prod.mk.injEq, Except.ok.injEq] at h
    rw [← h.1]
  | succ n ih =>
    intro t d c r c2 h
    simp only [loopAux, evT, scT] at h
    by_cases hc : |f (g t).1 - (g t).2| ≤ tol
    · rw [if_pos hc] at h
      simp only [Prod.mk.injEq, Except.ok.injEq] at h
      rw [← h.1]
    · rw [if_neg hc] at h
      exact ih (g t).1 (d + 1) ⟨c.evalCalls + 1, c.stepCalls + 1⟩ r c2 h

/-- Whatever the collaborators do, a run with iteration budget `n` invokes
the optimizer at most `n` more times. -/
theorem loopAux_stepCalls_le {P E : Type} (ev : P → Except E Cost)
    (sc : (P → Except E Cost) → P → Except E (P × Cost)) (tol : ℚ) :
    ∀ (n : Nat) (t : P) (en : Option Cost) (d : Nat) (c : Counters),
      (loopAux ev sc tol t en d c n).2.stepCalls ≤ c.stepCalls + n := by
  intro n
  induction n with
  | zero =>
    intro t en d c
    simp [loopAux]
  | succ n ih =>
    intro t en d c
    cases hsc : sc ev t with
    | error e =>
      simp only [loopAux, hsc]
      omega
    | ok tp =>
      cases hev : ev tp.1 with
      | error e =>
        simp only [loopAux, hsc, hev]
        omega
      | ok cur =>
        by_cases hc : |cur - tp.2| ≤ tol
        · simp only [loopAux, hsc, hev]
          rw [if_pos hc]
          simp only []
          omega
        · simp only [loopAux, hsc, hev]
          rw [if_neg hc]
          have := ih tp.1 (some cur) (d + 1) ⟨c.evalCalls + 1, c.stepCalls + 1⟩
          simp only [] at this
          omega

/-- With total collaborators and at least one budgeted iteration, the run
ends in a result record whose `energy` is the evaluator's value at the final
parameters. -/
theorem optimize_pure_finalCost {P : Type} (f : P → Cost) (g : P → P × Cost)
    (tol : ℚ) (t0 : P) (n : Nat) (hn : 1 ≤ n) :
    ∃ r, optimize (evT f) (scT g) tol t0 n = .ok r ∧
      r.finalCost = some (f r.finalParameters) := by
  match n, hn with
  | m + 1, _ =>
    by_cases hc : |f (g t0).1 - (g t0).2| ≤ tol
    · refine ⟨⟨(g t0).1, some (f (g t0).1), 1, true⟩, ?_, rfl⟩
      show (loopAux (evT f) (scT g) tol t0 none 0 ⟨0, 0⟩ (m + 1)).1 = _
      rw [loopAux_pure_succ, if_pos hc]
    · obtain ⟨r, c2, hr⟩ := loopAux_pure_ok f g tol m (g t0).1
        (some (f (g t0).1)) 1 ⟨1, 1⟩
      refine ⟨r, ?_, loopAux_cost_fresh f g tol m (g t0).1 1 ⟨1, 1⟩ r c2 hr⟩
      show (loopAux (evT f) (scT g) tol t0 none 0 ⟨0, 0⟩ (m + 1)).1 = _
      rw [loopAux_pure_succ, if_neg hc]
      show (loopAux (evT f) (scT g) tol (g t0).1 (some (f (g t0).1)) 1
        ⟨1, 1⟩ m).1 = _
      rw [hr]

/-- C1: each iteration first takes the optimizer's step-and-cost (new
parameters and the cost at the old parameters), then freshly evaluates the
cost at the new parameters, and declares convergence exactly when the
absolute difference of cost-after-step against cost-before-step is at most
the tolerance: a failure-free run returns the converged record of iteration
`k + 1` if and only if `k + 1` is the first iteration whose fresh cost
`currAt` is within `tol` of the optimizer-reported pre-step cost `prevAt`. -/
theorem optimize_converged_iff_first_step_within_tolerance {P : Type}
    (f : P → Cost) (g : P → P × Cost) (tol : ℚ) (t0 : P) (n k : Nat)
    (hk : k < n) :
    optimize (evT f) (scT g) tol t0 n =
        .ok ⟨thetaAt g t0 (k + 1), some (currAt f g t0 k), k + 1, true⟩
      ↔ (|currAt f g t0 k - prevAt g t0 k| ≤ tol ∧
         ∀ j, j < k → ¬ |currAt f g t0 j - prevAt g t0 j| ≤ tol) := by
  constructor
  · intro h
    by_cases hex : ∃ j, convAt f g tol t0 j
    · have hk0k : Nat.find hex = k := by
        have hA := loopAux_converge f g tol n (Nat.find hex) t0 none 0 ⟨0, 0⟩
          ?_ (fun j hj => Nat.find_min hex hj) (Nat.find_spec hex)
        · have h2 : (loopAux (evT f) (scT g) tol t0 none 0 ⟨0, 0⟩ n).1 =
              .ok ⟨thetaAt g t0 (k + 1), some (currAt f g t0 k), k + 1,
                true⟩ := h
          rw [hA] at h2
          have h3 := Except.ok.inj h2
          have h4 := congrArg LoopOutcome.iterationsRun h3
          simp only [] at h4
          omega
        · by_contra hno
          push_neg at hno
          have hall : ∀ j, j < n → ¬ convAt f g tol t0 j := by
            intro j hj
            by_contra hcj
            have hle := Nat.find_min' hex hcj
            omega
          match n, hk with
          | m + 1, _ =>
            have hB := loopAux_exhaust f g tol m t0 none 0 ⟨0, 0⟩ hall
            have h2 : (loopAux (evT f) (scT g) tol t0 none 0 ⟨0, 0⟩
                (m + 1)).1 =
              .ok ⟨thetaAt g t0 (k + 1), some (currAt f g t0 k), k + 1,
                true⟩ := h
            rw [hB] at h2
            have h3 := Except.ok.inj h2
            have h4 := congrArg LoopOutcome.converged h3
            simp only [] at h4
            exact Bool.noConfusion h4
      refine ⟨?_, ?_⟩
      · have := Nat.find_spec hex
        rw [hk0k] at this
        exact this
      · intro j hj
        have := Nat.find_min hex (hk0k ▸ hj)
        exact this
    · exfalso
      apply hex
      match n, hk with
      | m + 1, _ =>
        have hall : ∀ j, j < m + 1 → ¬ convAt f g tol t0 j := by
          intro j hj hcj
          exact hex ⟨j, hcj⟩
        have hB := loopAux_exhaust f g tol m t0 none 0 ⟨0, 0⟩ hall
        have h2 : (loopAux (evT f) (scT g) tol t0 none 0 ⟨0, 0⟩ (m + 1)).1 =
            .ok ⟨thetaAt g t0 (k + 1), some (currAt f g t0 k), k + 1,
              true⟩ := h
        rw [hB] at h2
        have h3 := Except.ok.inj h2
        have h4 := congrArg LoopOutcome.converged h3
        simp only [] at h4
        exact Bool.noConfusion h4
  · intro h
    have hA := loopAux_converge f g tol n k t0 none 0 ⟨0, 0⟩ hk h.2 h.1
    show (loopAux (evT f) (scT g) tol t0 none 0 ⟨0, 0⟩ n).1 = _
    rw [hA]
    simp only [Nat.zero_add]

/-- C1 witness: a concrete failure-free run (halving steps from 8 with
tolerance 3) converges at the second iteration, and the characterization
instantiates there. -/
theorem optimize_converged_iff_witness :
    optimize (evT (fun t : ℚ => t)) (scT (fun t : ℚ => (t / 2, t))) 3 8 5 =
        .ok ⟨thetaAt (fun t : ℚ => (t / 2, t)) 8 2,
          some (currAt (fun t : ℚ => t) (fun t : ℚ => (t / 2, t)) 8 1), 2,
          true⟩
      ↔ (|currAt (fun t : ℚ => t) (fun t : ℚ => (t / 2, t)) 8 1 -
            prevAt (fun t : ℚ => (t / 2, t)) 8 1| ≤ 3 ∧
         ∀ j, j < 1 →
           ¬ |currAt (fun t : ℚ => t) (fun t : ℚ => (t / 2, t)) 8 j -
               prevAt (fun t : ℚ => (t / 2, t)) 8 j| ≤ 3) :=
  optimize_converged_iff_first_step_within_tolerance
    (fun t : ℚ => t) (fun t : ℚ => (t / 2, t)) 3 8 5 1 (by norm_num)

/-- C2: whenever `optimize` returns an `OptimizationResult` record, its
reported iteration count equals the number of optimizer step-and-cost calls
the loop made — a 1-based count of completed optimizer steps, whether or not
the run converged. -/
theorem optimize_iterationsRun_eq_stepCalls {P E : Type}
    (ev : P → Except E Cost)
    (sc : (P → Except E Cost) → P → Except E (P × Cost)) (tol : ℚ) (t0 : P)
    (n : Nat) (r : LoopOutcome P)
    (h : optimize ev sc tol t0 n = .ok r) :
    r.iterationsRun = (optimizeCalls ev sc tol t0 n).stepCalls := by
  have hpair : loopAux ev sc tol t0 none 0 ⟨0, 0⟩ n =
      (.ok r, optimizeCalls ev sc tol t0 n) := by
    rw [← h]
    rfl
  obtain ⟨hd, hs, he⟩ :=
    loopAux_ok_counts ev sc tol n t0 none 0 ⟨0, 0⟩ r _ hpair
  rw [hs]
  have h0 : (⟨0, 0⟩ : Counters).stepCalls = 0 := rfl
  rw [h0]
  omega

/-- C2 witness: a run that exhausts its budget of 3 iterations reports
`iterationsRun = 3`, which equals the 3 optimizer calls made. -/
theorem optimize_iterationsRun_eq_stepCalls_witness :
    (⟨3, some 3, 3, false⟩ : LoopOutcome ℚ).iterationsRun =
      (optimizeCalls (evT (fun t : ℚ => t))
        (scT (fun t : ℚ => (t + 1, t))) (1 / 2) 0 3).stepCalls :=
  optimize_iterationsRun_eq_stepCalls
    (evT (fun t : ℚ => t)) (scT (fun t : ℚ => (t + 1, t))) (1 / 2) 0 3
    ⟨3, some 3, 3, false⟩ (by with_unfolding_all decide)

/-- C3: when none of the `maxIterations` budgeted iterations passes the
tolerance test, `optimize` terminates normally with an `OptimizationResult`
(no error), reporting `converged = false` and `iterationsRun =
maxIterations`. -/
theorem optimize_exhaustion_returns_unconverged {P : Type} (f : P → Cost)
    (g : P → P × Cost) (tol : ℚ) (t0 : P) (n : Nat)
    (h : ∀ j, j < n → ¬ |currAt f g t0 j - prevAt g t0 j| ≤ tol) :
    ∃ r, optimize (evT f) (scT g) tol t0 n = .ok r ∧
      r.converged = false ∧ r.iterationsRun = n := by
  match n with
  | 0 => exact ⟨⟨t0, none, 0, false⟩, rfl, rfl, rfl⟩
  | m + 1 =>
    have hB := loopAux_exhaust f g tol m t0 none 0 ⟨0, 0⟩ h
    refine ⟨⟨thetaAt g t0 (m + 1), some (currAt f g t0 m), 0 + (m + 1),
      false⟩, ?_, rfl, by show 0 + (m + 1) = m + 1; omega⟩
    show (loopAux (evT f) (scT g) tol t0 none 0 ⟨0, 0⟩ (m + 1)).1 = _
    rw [hB]

/-- C3 witness: a cost that rises by 1 each step with tolerance 1/2 never
converges; a budget of 3 ends normally with `converged = false` and
`iterationsRun = 3`. -/
theorem optimize_exhaustion_witness :
    ∃ r, optimize (evT (fun t : ℚ => t)) (scT (fun t : ℚ => (t + 1, t)))
        (1 / 2) 0 3 = .ok r ∧
      r.converged = false ∧ r.iterationsRun = 3 :=
  optimize_exhaustion_returns_unconverged (fun t : ℚ => t)
    (fun t : ℚ => (t + 1, t)) (1 / 2) 0 3 (by with_unfolding_all decide)

/-- C4: with collaborators whose calls all return and a positive iteration
budget, `optimize` terminates in a result record, makes at most
`maxIterations` optimizer calls, and reports `converged = true` whenever
some budgeted iteration brings the cost change within the tolerance (as a
non-increasing, bounded-below cost eventually does). -/
theorem optimize_terminates_within_budget {P : Type} (f : P → Cost)
    (g : P → P × Cost) (tol : ℚ) (t0 : P) (n : Nat) (hn : 1 ≤ n) :
    ∃ r, optimize (evT f) (scT g) tol t0 n = .ok r ∧
      (optimizeCalls (evT f) (scT g) tol t0 n).stepCalls ≤ n ∧
      ((∃ k, k < n ∧ |currAt f g t0 k - prevAt g t0 k| ≤ tol) →
        r.converged = true) := by
  by_cases hc : ∃ k, k < n ∧ convAt f g tol t0 k
  · obtain ⟨k, hkn, hkc⟩ := hc
    have hex : ∃ j, convAt f g tol t0 j := ⟨k, hkc⟩
    have hk0n : Nat.find hex < n :=
      Nat.lt_of_le_of_lt (Nat.find_min' hex hkc) hkn
    have hA := loopAux_converge f g tol n (Nat.find hex) t0 none 0 ⟨0, 0⟩
      hk0n (fun j hj => Nat.find_min hex hj) (Nat.find_spec hex)
    refine ⟨⟨thetaAt g t0 (Nat.find hex + 1),
      some (currAt f g t0 (Nat.find hex)), 0 + (Nat.find hex + 1), true⟩,
      ?_, ?_, fun _ => rfl⟩
    · show (loopAux (evT f) (scT g) tol t0 none 0 ⟨0, 0⟩ n).1 = _
      rw [hA]
    · show (loopAux (evT f) (scT g) tol t0 none 0 ⟨0, 0⟩ n).2.stepCalls ≤ n
      rw [hA]
      show (⟨0, 0⟩ : Counters).stepCalls + (Nat.find hex + 1) ≤ n
      have h0 : (⟨0, 0⟩ : Counters).stepCalls = 0 := rfl
      omega
  · push_neg at hc
    match n, hn with
    | m + 1, _ =>
      have hall : ∀ j, j < m + 1 → ¬ convAt f g tol t0 j := fun j hj =>
        hc j hj
      have hB := loopAux_exhaust f g tol m t0 none 0 ⟨0, 0⟩ hall
      refine ⟨⟨thetaAt g t0 (m + 1), some (currAt f g t0 m), 0 + (m + 1),
        false⟩, ?_, ?_, ?_⟩
      · show (loopAux (evT f) (scT g) tol t0 none 0 ⟨0, 0⟩ (m + 1)).1 = _
        rw [hB]
      · show (loopAux (evT f) (scT g) tol t0 none 0 ⟨0, 0⟩
          (m + 1)).2.stepCalls ≤ m + 1
        rw [hB]
        show (⟨0, 0⟩ : Counters).stepCalls + (m + 1) ≤ m + 1
        have h0 : (⟨0, 0⟩ : Counters).stepCalls = 0 := rfl
        omega
      · intro hex'
        obtain ⟨k, hkn, hkc⟩ := hex'
        exact absurd hkc (hc k hkn)

/-- C4 witness: a quadratic-bowl cost halved each step from 1 stabilizes
within tolerance 1/2 inside a budget of 5 iterations. -/
theorem optimize_terminates_within_budget_witness :
    ∃ r, optimize (evT (fun t : ℚ => t * t))
        (scT (fun t : ℚ => (t / 2, t * t))) (1 / 2) 1 5 = .ok r ∧
      (optimizeCalls (evT (fun t : ℚ => t * t))
        (scT (fun t : ℚ => (t / 2, t * t))) (1 / 2) 1 5).stepCalls ≤ 5 ∧
      ((∃ k, k < 5 ∧
          |currAt (fun t : ℚ => t * t) (fun t : ℚ => (t / 2, t * t)) 1 k -
            prevAt (fun t : ℚ => (t / 2, t * t)) 1 k| ≤ 1 / 2) →
        r.converged = true) :=
  optimize_terminates_within_budget (fun t : ℚ => t * t)
    (fun t : ℚ => (t / 2, t * t)) (1 / 2) 1 5 (by norm_num)

/-- C5: a failure raised by the optimizer or by the evaluator propagates out
of the loop at once — the run returns that very failure, makes no further
call to any collaborator (the failing call is the last one counted), and
builds no result record. -/
theorem loop_failure_propagates_immediately {P E : Type}
    (ev : P → Except E Cost)
    (sc : (P → Except E Cost) → P → Except E (P × Cost)) (tol : ℚ) (t : P)
    (en : Option Cost) (d : Nat) (c : Counters) (n : Nat) (e : E) :
    (sc ev t = .error e →
      loopAux ev sc tol t en d c (n + 1) =
        (.error e, ⟨c.evalCalls, c.stepCalls + 1⟩)) ∧
    (∀ tp, sc ev t = .ok tp → ev tp.1 = .error e →
      loopAux ev sc tol t en d c (n + 1) =
        (.error e, ⟨c.evalCalls + 1, c.stepCalls + 1⟩)) := by
  constructor
  · intro hsc
    simp only [loopAux, hsc]
  · intro tp hsc hev
    simp only [loopAux, hsc, hev]

/-- C9: with total collaborators and a positive budget, the value the
reporting code exports (`output = float(energy)`) is the cost freshly
evaluated at the final parameter vector — the `currentCost` of the last
executed iteration, not the optimizer's pre-step cost. -/
theorem output_is_fresh_final_cost {P : Type} (f : P → Cost)
    (g : P → P × Cost) (tol : ℚ) (t0 : P) (n : Nat) (hn : 1 ≤ n) :
    ∃ r, optimize (evT f) (scT g) tol t0 n = .ok r ∧
      reportOutput r = some (f r.finalParameters) := by
  obtain ⟨r, hr, hcost⟩ := optimize_pure_finalCost f g tol t0 n hn
  exact ⟨r, hr, hcost⟩

/-- C9 witness: the identity cost with a stationary optimizer converges at
once and exports the cost evaluated at the final parameters. -/
theorem output_is_fresh_final_cost_witness :
    ∃ r, optimize (evT (fun t : ℚ => t)) (scT (fun t : ℚ => (t, t))) 0 0 1 =
        .ok r ∧
      reportOutput r = some ((fun t : ℚ => t) r.finalParameters) :=
  output_is_fresh_final_cost (fun t : ℚ => t) (fun t : ℚ => (t, t)) 0 0 1
    (by norm_num)

/-- C10: with total collaborators, a budget of at least 1 makes the loop
body run at least once, so the `energy` local read by the reporting code is
always defined; with a budget of 0 the loop body never runs and the
reporting code reads an undefined name (`none`). -/
theorem final_locals_defined_iff_loop_ran {P : Type} (f : P → Cost)
    (g : P → P × Cost) (tol : ℚ) (t0 : P) :
    (∀ n, 1 ≤ n →
      ∃ r, optimize (evT f) (scT g) tol t0 n = .ok r ∧
        ∃ x, reportOutput r = some x) ∧
    (∃ r0, optimize (evT f) (scT g) tol t0 0 = .ok r0 ∧
      reportOutput r0 = none) := by
  constructor
  · intro n hn
    obtain ⟨r, hr, hcost⟩ := optimize_pure_finalCost f g tol t0 n hn
    exact ⟨r, hr, f r.finalParameters, hcost⟩
  · exact ⟨⟨t0, none, 0, false⟩, rfl, rfl⟩

end VQE

namespace XyzParse

theorem parseAtoms_ok_length :
    ∀ (n i : Nat) (ls : List (List Char)) (as : List Atom),
      parseAtoms n i ls = .ok as → as.length = n := by
  intro n
  induction n with
  | zero =>
    intro i ls as h
    have h1 := Except.ok.inj h
    rw [← h1]
    rfl
  | succ n ih =>
    intro i ls as h
    cases ls with
    | nil => exact Except.noConfusion h
    | cons l ls' =>
      simp only [parseAtoms] at h
      cases hpa : parseAtom i l with
      | error e =>
        rw [hpa] at h
        exact Except.noConfusion h
      | ok a =>
        rw [hpa] at h
        cases hrest : parseAtoms n (i + 1) ls' with
        | error e =>
          rw [hrest] at h
          exact Except.noConfusion h
        | ok as' =>
          rw [hrest] at h
          have h1 := Except.ok.inj h
          rw [← h1, List.length_cons, ih (i + 1) ls' as' hrest]

theorem parseAtoms_short :
    ∀ (n i : Nat) (ls : List (List Char)), ls.length < n →
      ∃ e, parseAtoms n i ls = .error e := by
  intro n
  induction n with
  | zero =>
    intro i ls h
    exact absurd h (Nat.not_lt_zero _)
  | succ n ih =>
    intro i ls h
    cases ls with
    | nil => exact ⟨.missingAtomLine i, rfl⟩
    | cons l ls' =>
      have h' : ls'.length < n := by
        rw [List.length_cons] at h
        omega
      cases hpa : parseAtom i l with
      | error e => exact ⟨e, by simp only [parseAtoms, hpa]⟩
      | ok a =>
        obtain ⟨e, he⟩ := ih (i + 1) ls' h'
        exact ⟨e, by simp only [parseAtoms, hpa, he]⟩

/-- C6 (amended): every successful parse returns exactly as many atoms as
the header declares, and an input offering fewer atom lines than the header
declares fails with a `FormatError`.  (When the input offers more than the
declared count, the extra lines are trailing content and are ignored — see
the counterexample `parse_trailing_atoms_counterexample`.) -/
theorem parse_atom_count_invariant (t : String) :
    (∀ m, Molecule.parse t = .ok m →
      declaredCount t = some m.atoms.length) ∧
    (∀ n, declaredCount t = some n → atomLineCount t < n →
      ∃ e, Molecule.parse t = .error e) := by
  constructor
  · intro m hm
    unfold Molecule.parse at hm
    cases hl : linesOf t with
    | nil =>
      rw [hl] at hm
      exact Except.noConfusion hm
    | cons header rest =>
      rw [hl] at hm
      simp only [] at hm
      cases hh : parseHeader header with
      | error e =>
        rw [hh] at hm
        exact Except.noConfusion hm
      | ok n =>
        rw [hh] at hm
        cases rest with
        | nil => exact Except.noConfusion hm
        | cons comment atomLines =>
          simp only [] at hm
          cases hpa : parseAtoms n 3 atomLines with
          | error e =>
            rw [hpa] at hm
            exact Except.noConfusion hm
          | ok atoms =>
            rw [hpa] at hm
            have h1 := Except.ok.inj hm
            have hlen := parseAtoms_ok_length n 3 atomLines atoms hpa
            unfold declaredCount
            rw [hl]
            simp only [hh, ← h1, hlen]
  · intro n hn hshort
    unfold declaredCount at hn
    cases hl : linesOf t with
    | nil =>
      rw [hl] at hn
      exact Option.noConfusion hn
    | cons header rest =>
      rw [hl] at hn
      simp only [] at hn
      cases hh : parseHeader header with
      | error e =>
        rw [hh] at hn
        exact Option.noConfusion hn
      | ok n' =>
        rw [hh] at hn
        have hn' : n' = n := Option.some.inj hn
        subst hn'
        unfold Molecule.parse
        rw [hl]
        simp only [hh]
        cases rest with
        | nil => exact ⟨.missingComment, rfl⟩
        | cons comment atomLines =>
          have hless : atomLines.length < n' := by
            unfold atomLineCount at hshort
            rw [hl] at hshort
            simp only [List.length_cons] at hshort
            omega
          obtain ⟨e, he⟩ := parseAtoms_short n' 3 atomLines hless
          exact ⟨e, by simp only [he]⟩

set_option maxRecDepth 20000 in
/-- C6 counterexample: an input whose atom-line count (2) differs from its
declared header count (1) on which `parse` nevertheless succeeds — the
second atom line is trailing content and is ignored, so a differing
atom-line count does not always make `parse` fail. -/
theorem parse_trailing_atoms_counterexample :
    Molecule.parse "1\nc\nH 0.0 0.0 0.0\nH 1.0 1.0 1.0" =
        .ok ⟨"c", [⟨"H", 0, 0, 0⟩]⟩ ∧
      declaredCount "1\nc\nH 0.0 0.0 0.0\nH 1.0 1.0 1.0" = some 1 ∧
      atomLineCount "1\nc\nH 0.0 0.0 0.0\nH 1.0 1.0 1.0" = 2 := by
  with_unfolding_all decide

set_option maxRecDepth 20000 in
/-- C7: the sample H2 geometry parses to the comment
`"Sample H2 molecule"` and the two hydrogen atoms in input order, at
(0.3710, 0, 0) and (-0.3710, 0, 0). -/
theorem parse_sample_h2 :
    Molecule.parse "2\nSample H2 molecule\nH 0.3710 0.0 0.0\nH -0.3710 0.0 0.0" =
      .ok ⟨"Sample H2 molecule",
        [⟨"H", 0.3710, 0, 0⟩, ⟨"H", -0.3710, 0, 0⟩]⟩ := by
  with_unfolding_all decide

set_option maxRecDepth 20000 in
/-- C8: a declared atom count of zero is accepted — `"0\nEmpty\n"` parses
to a molecule with comment `"Empty"` and no atoms. -/
theorem parse_empty_molecule :
    Molecule.parse "0\nEmpty\n" = .ok ⟨"Empty", []⟩ := by
  with_unfolding_all decide

end XyzParse
